import Mathlib

/-
  Verification of the tcolour library (colour.rs, gradient.rs).

  The `f64` values flowing through the library are modelled by `TColour.Fl`:
  finite values are exact rationals, and the IEEE special values (two
  infinities and NaN) are explicit constructors.  Arithmetic on finite
  values is exact rational arithmetic; every operation involving a special
  value follows the IEEE-754 rules the Rust code relies on (division by
  zero produces an infinity or NaN, NaN propagates and compares false,
  infinities have signed arithmetic).  Negative zero is identified with
  zero.  Rust's `f64::is_normal` is `false` for zero, subnormals
  (|x| < 2^-1022), infinities and NaN, which the model reproduces.
-/

namespace TColour

inductive Fl where
  | fin : ℚ → Fl
  | inf : Bool → Fl
  | nan : Fl
deriving DecidableEq, Repr

/-- Smallest positive normal `f64`. -/
def minNormal : ℚ := 1 / 2 ^ 1022

/-- First power of two beyond the largest finite `f64`. -/
def maxFinite : ℚ := 2 ^ 1024

/-- Rust's `f64::is_normal`: false for zero, subnormal, infinite and NaN values. -/
def isNormal : Fl → Bool
  | .fin q => decide (q ≠ 0 ∧ minNormal ≤ |q| ∧ |q| < maxFinite)
  | _ => false

def fadd : Fl → Fl → Fl
  | .fin p, .fin q => .fin (p + q)
  | .fin _, .inf s => .inf s
  | .inf s, .fin _ => .inf s
  | .inf s, .inf t => if s = t then .inf s else .nan
  | _, _ => .nan

def fsub : Fl → Fl → Fl
  | .fin p, .fin q => .fin (p - q)
  | .fin _, .inf s => .inf (!s)
  | .inf s, .fin _ => .inf s
  | .inf s, .inf t => if s = t then .nan else .inf s
  | _, _ => .nan

def fmul : Fl → Fl → Fl
  | .fin p, .fin q => .fin (p * q)
  | .fin p, .inf s => if p = 0 then .nan else .inf (decide (0 < p) == s)
  | .inf s, .fin p => if p = 0 then .nan else .inf (s == decide (0 < p))
  | .inf s, .inf t => .inf (s == t)
  | _, _ => .nan

def fdiv : Fl → Fl → Fl
  | .fin p, .fin q =>
      if q = 0 then (if p = 0 then .nan else .inf (decide (0 < p)))
      else .fin (p / q)
  | .fin _, .inf _ => .fin 0
  | .inf s, .fin q => .inf (s == decide (0 ≤ q))
  | _, _ => .nan

/-- Strict `<` on `f64`: false whenever NaN is involved. -/
def flt : Fl → Fl → Bool
  | .fin p, .fin q => decide (p < q)
  | .fin _, .inf s => s
  | .inf s, .fin _ => !s
  | .inf s, .inf t => !s && t
  | _, _ => false

/-- Comparison `<=` on `f64`: false whenever NaN is involved. -/
def fle : Fl → Fl → Bool
  | .fin p, .fin q => decide (p ≤ q)
  | .fin _, .inf s => s
  | .inf s, .fin _ => !s
  | .inf s, .inf t => !s && t || s == t
  | _, _ => false

/-- Equality `==` on `f64`: NaN is not equal to anything, including itself. -/
def feq : Fl → Fl → Bool
  | .fin p, .fin q => decide (p = q)
  | .inf s, .inf t => s == t
  | _, _ => false

/-- Rust's `f64::min`: if one argument is NaN the other is returned. -/
def fmin (a b : Fl) : Fl :=
  match a, b with
  | .nan, _ => b
  | _, .nan => a
  | _, _ => if fle a b then a else b

/-- Rust's `f64::max`: if one argument is NaN the other is returned. -/
def fmax (a b : Fl) : Fl :=
  match a, b with
  | .nan, _ => b
  | _, .nan => a
  | _, _ => if fle a b then b else a

/-- The per-channel cleaning closure of `Colour::cleaned`/`Colour::clean`:
`if !v.is_normal() { 1.0 } else { v }`. -/
def fclean (v : Fl) : Fl := if isNormal v then v else .fin 1

end TColour

namespace TColour

/-- Type `Colour` from colour.rs: four `f64` channels. -/
structure Colour where
  r : Fl
  g : Fl
  b : Fl
  a : Fl
deriving DecidableEq, Repr

namespace Colour

/-- Constructor `Colour::new`. -/
def new (r g b a : Fl) : Colour := ⟨r, g, b, a⟩

/-- Constructor `Colour::solid`: alpha 1. -/
def solid (r g b : Fl) : Colour := new r g b (.fin 1)

/-- Constructor `Colour::grey`. -/
def grey (v : Fl) : Colour := solid v v v

/-- Constructor `Colour::red`. -/
def red (v : Fl) : Colour := solid v (.fin 0) (.fin 0)

/-- Constructor `Colour::green`. -/
def green (v : Fl) : Colour := solid (.fin 0) v (.fin 0)

/-- Constructor `Colour::blue`. -/
def blue (v : Fl) : Colour := solid (.fin 0) (.fin 0) v

/-- Constructor `Colour::transparent`: RGBA(0, 0, 0, 0). -/
def transparent : Colour := new (.fin 0) (.fin 0) (.fin 0) (.fin 0)

/-- Method `Colour::with_alpha`. -/
def with_alpha (c : Colour) (alpha : Fl) : Colour := { c with a := alpha }

/-- Operator `impl_op_ex!(+ |a: &Colour, b: &Colour|)`: channel-wise add, keeps `a.a`. -/
def addColour (x y : Colour) : Colour := new (fadd x.r y.r) (fadd x.g y.g) (fadd x.b y.b) x.a

/-- Operator `impl_op_ex!(- |a: &Colour, b: &Colour|)`: channel-wise sub, keeps `a.a`. -/
def subColour (x y : Colour) : Colour := new (fsub x.r y.r) (fsub x.g y.g) (fsub x.b y.b) x.a

/-- Operator `impl_op_ex!(* |a: &Colour, b: &Colour|)`: channel-wise mul, keeps `a.a`. -/
def mulColour (x y : Colour) : Colour := new (fmul x.r y.r) (fmul x.g y.g) (fmul x.b y.b) x.a

/-- Operator `impl_op_ex!(/ |a: &Colour, b: &Colour|)`: channel-wise div, keeps `a.a`. -/
def divColour (x y : Colour) : Colour := new (fdiv x.r y.r) (fdiv x.g y.g) (fdiv x.b y.b) x.a

/-- Operator `Colour * f64` (and commutative variant): scalar broadcast to RGB, alpha kept. -/
def mulScalar (x : Colour) (v : Fl) : Colour := new (fmul x.r v) (fmul x.g v) (fmul x.b v) x.a

/-- Operator `Colour / f64`: scalar broadcast to RGB, alpha kept. -/
def divScalar (x : Colour) (v : Fl) : Colour := new (fdiv x.r v) (fdiv x.g v) (fdiv x.b v) x.a

/-- Operator `f64 - Colour`: `Colour::new(b - a.r, b - a.g, b - a.b, a.a)`. -/
def scalarSub (v : Fl) (x : Colour) : Colour := new (fsub v x.r) (fsub v x.g) (fsub v x.b) x.a

/-- Method `Colour::inverted`: `1.0 - self`, alpha untouched. -/
def inverted (x : Colour) : Colour := scalarSub (.fin 1) x

/-- Unary `-` on `Colour` is `inverted`. -/
def neg (x : Colour) : Colour := inverted x

/-- Method `Colour::map_rgba`: apply a closure to all four channels. -/
def map_rgba (x : Colour) (f : Fl → Fl) : Colour := new (f x.r) (f x.g) (f x.b) (f x.a)

/-- Method `Colour::map_with`: combine RGB channels with another colour, keep `self.a`. -/
def map_with (x y : Colour) (f : Fl → Fl → Fl) : Colour :=
  new (f x.r y.r) (f x.g y.g) (f x.b y.b) x.a

/-- Method `Colour::cleaned`: every non-normal channel (NaN, infinite, subnormal — and
zero, which `is_normal` also rejects) becomes `1.0`. -/
def cleaned (x : Colour) : Colour := x.map_rgba fclean

/-- Method `Colour::clean`: in-place variant of `cleaned`, modelled as the resulting
state; `apply_rgba` runs the same closure over all four channels. -/
def clean (x : Colour) : Colour := x.map_rgba fclean

/-- Method `Colour::lerp`: `self + (other - self) * t`. -/
def lerp (x y : Colour) (t : Fl) : Colour := addColour x (mulScalar (subColour y x) t)

end Colour

/-- Enum `BlendMode` from colour.rs. -/
inductive BlendMode where
  | Normal
  | Multiply
  | Divide
  | Addition
  | Subtract
  | Screen
  | Overlay
  | HardLight
  | SoftLight
  | Darken
  | Lighten
deriving DecidableEq, Repr

namespace Colour

/-- The per-channel Overlay formula from `blend`:
`if base < 0.5 { 2*blend*base } else { 1 - 2*(1-base)*(1-blend) }`. -/
def overlayChannel (base blend : Fl) : Fl :=
  if flt base (.fin (1/2)) then fmul (fmul (.fin 2) blend) base
  else fsub (.fin 1) (fmul (fmul (.fin 2) (fsub (.fin 1) base)) (fsub (.fin 1) blend))

/-- The alpha-compositing phase of `blend`:
`alpha_composite = other.a + self.a * (1 - other.a)` and
`((blended * other.a + self * self.a * (1 - other.a)) / alpha_composite).with_alpha(alpha_composite)`. -/
def compositePhase (self other blended : Colour) : Colour :=
  let alpha_composite := fadd other.a (fmul self.a (fsub (.fin 1) other.a))
  (divScalar
      (addColour (mulScalar blended other.a)
        (mulScalar (mulScalar self self.a) (fsub (.fin 1) other.a)))
      alpha_composite).with_alpha alpha_composite

/-- The `match blend_mode` arm of `blend`, before `.cleaned()` is applied.
The `HardLight` arm is the code's `other.blend(*self, BlendMode::Overlay)`,
a full nested blend, written out (`blend b a Overlay` unfolds to exactly
this composite). -/
def channelBlendRaw (self other : Colour) : BlendMode → Colour
  | .Normal => other
  | .Addition => addColour self other
  | .Subtract => subColour self other
  | .Multiply => mulColour self other
  | .Divide => divColour self other
  | .Darken => map_with self other fmin
  | .Lighten => map_with self other fmax
  | .Screen => neg (mulColour (neg self) (neg other))
  | .Overlay => map_with self other overlayChannel
  | .HardLight =>
      compositePhase other self (cleaned (map_with other self overlayChannel))
  | .SoftLight =>
      addColour (mulColour self (neg (mulColour (neg other) (neg other))))
        (mulColour (neg self) other)

/-- Method `Colour::blend`: clean the mode's channel-blend result, then alpha-composite. -/
def blend (self other : Colour) (mode : BlendMode) : Colour :=
  compositePhase self other (cleaned (channelBlendRaw self other mode))

/-- Method `Colour::compose`: `blend` with `BlendMode::Normal`. -/
def compose (self other : Colour) : Colour := blend self other .Normal

/-- Method `Colour::blend_onto`: `other.blend(self, mode)`. -/
def blend_onto (self other : Colour) (mode : BlendMode) : Colour := blend other self mode

end Colour

/-- Type `GradientStop` from gradient.rs: `(f64, Colour)`. -/
abbrev GradientStop := Fl × Colour

/-- A gradient is its ordered list of stops (`Gradient(pub Vec<GradientStop>)`). -/
abbrev Gradient := List GradientStop

/-- The gradient invariant: stops strictly ascending by position under `f64 <`
(which implies that positions are unique). -/
def Sorted (g : Gradient) : Prop :=
  List.Pairwise (fun s t : GradientStop => flt s.1 t.1 = true) g

instance (g : Gradient) : Decidable (Sorted g) :=
  List.instDecidablePairwise g

/-- Method `Gradient::insert`: skip stops with position `< t`; at the first stop with
position not less than `t`, replace its colour if the position equals `t`
exactly, otherwise insert `(t, colour)` before it; append if every stop's
position is `< t`. -/
def insert (g : Gradient) (t : Fl) (colour : Colour) : Gradient :=
  match g with
  | [] => [(t, colour)]
  | s :: rest =>
      if flt s.1 t then s :: insert rest t colour
      else if feq s.1 t then (s.1, colour) :: rest
      else (t, colour) :: s :: rest

/-- The `scan`/`find_map` loop of `Gradient::subgradient`: walk the stops
carrying the previous one; at the first stop with position `> t` yield
`(previous-or-itself, stop)`. -/
def scanFind (t : Fl) : Option GradientStop → List GradientStop →
    Option (GradientStop × GradientStop)
  | _, [] => none
  | prev, curr :: rest =>
      if flt t curr.1 then some (prev.getD curr, curr)
      else scanFind t (some curr) rest

/-- Method `Gradient::subgradient`: the scan above, falling back to `(last, last)`;
the final `.unwrap()` panics on an empty gradient, modelled as `none`. -/
def subgradient (g : Gradient) (t : Fl) : Option (GradientStop × GradientStop) :=
  match scanFind t none g with
  | some p => some p
  | none => g.getLast?.map fun last => (last, last)

/-- Method `Gradient::interpolate`: normalise `t` inside the bracket; a non-normal
`normalised_t` (zero, subnormal, NaN or infinite) is replaced by `1.0`. -/
def interpolate (g : Gradient) (t : Fl)
    (interpolator : Colour → Colour → Fl → Colour) : Option Colour :=
  (subgradient g t).map fun br =>
    let normalised_t := fdiv (fsub t br.1.1) (fsub br.2.1 br.1.1)
    interpolator br.1.2 br.2.2 (if isNormal normalised_t then normalised_t else .fin 1)

/-- Method `Gradient::sample`: `interpolate` with the default linear interpolator
`(from + (to - from) * t).with_alpha(from.a + (to.a - from.a) * t)`. -/
def sample (g : Gradient) (t : Fl) : Option Colour :=
  interpolate g t fun f tc t' =>
    (Colour.addColour f (Colour.mulScalar (Colour.subColour tc f) t')).with_alpha
      (fadd f.a (fmul (fsub tc.a f.a) t'))

/-- Method `Gradient::select`: lower bracket colour. -/
def select (g : Gradient) (t : Fl) : Option Colour :=
  (subgradient g t).map fun br => br.1.2

/-- Method `Gradient::select_upper`: upper bracket colour. -/
def select_upper (g : Gradient) (t : Fl) : Option Colour :=
  (subgradient g t).map fun br => br.2.2

/-- True exactly on finite (non-infinite, non-NaN) values. -/
def isFinite : Fl → Bool
  | .fin _ => true
  | _ => false

/-- The spec's formula for `blend` written out channel-wise:
`out_alpha = blend_layer.a + base.a * (1 - blend_layer.a)` and
`out_rgb = (blended*blend_layer.a + base*base.a*(1-blend_layer.a)) / out_alpha`,
where `blended` is the mode's cleaned channel-blend result and no cleaning is
applied after the division.  To be compared against `Colour.blend`. -/
def blendSpecFormula (base blend_layer : Colour) (mode : BlendMode) : Colour :=
  let blended := Colour.cleaned (Colour.channelBlendRaw base blend_layer mode)
  let out_alpha := fadd blend_layer.a (fmul base.a (fsub (.fin 1) blend_layer.a))
  ⟨fdiv (fadd (fmul blended.r blend_layer.a)
      (fmul (fmul base.r base.a) (fsub (.fin 1) blend_layer.a))) out_alpha,
   fdiv (fadd (fmul blended.g blend_layer.a)
      (fmul (fmul base.g base.a) (fsub (.fin 1) blend_layer.a))) out_alpha,
   fdiv (fadd (fmul blended.b blend_layer.a)
      (fmul (fmul base.b base.a) (fsub (.fin 1) blend_layer.a))) out_alpha,
   out_alpha⟩

/-- The claim's reading of HardLight: the two-phase blend whose channel-blend
phase is the Overlay channel formula with the base and blend-layer roles
swapped (`2*a*b` if `b < 0.5`, else `1 - 2*(1-b)*(1-a)`), followed by the
standard compositing phase.  To be compared against
`Colour.blend _ _ .HardLight`. -/
def hardLightSpec (base blend_layer : Colour) : Colour :=
  Colour.compositePhase base blend_layer
    (Colour.cleaned (Colour.map_with base blend_layer fun a b => Colour.overlayChannel b a))

/-! ### Order and arithmetic facts about the float model -/

theorem flt_trans {a b c : Fl} (h1 : flt a b = true) (h2 : flt b c = true) :
    flt a c = true := by
  cases a <;> cases b <;> cases c <;> simp_all [flt] <;> linarith

theorem flt_of_flt_of_fle {a b c : Fl} (h1 : flt a b = true) (h2 : fle b c = true) :
    flt a c = true := by
  cases a <;> cases b <;> cases c <;> simp_all [flt, fle] <;> linarith

theorem flt_asymm {a b : Fl} (h : flt a b = true) : flt b a = false := by
  cases a <;> cases b <;> simp_all [flt] <;> linarith

theorem not_flt_of_fle {a b : Fl} (h : fle a b = true) : flt b a = false := by
  cases a <;> cases b <;> simp_all [flt, fle] <;>
    first
      | linarith
      | (rename_i s t; cases s <;> cases t <;> simp_all)

theorem flt_ne_nan_left {a b : Fl} (h : flt a b = true) : a ≠ .nan := by
  cases a <;> simp_all [flt]

theorem flt_ne_nan_right {a b : Fl} (h : flt a b = true) : b ≠ .nan := by
  cases a <;> cases b <;> simp_all [flt]

theorem fle_refl {a : Fl} (h : a ≠ .nan) : fle a a = true := by
  cases a <;> simp_all [fle]

theorem feq_eq {a b : Fl} (h : feq a b = true) : a = b := by
  cases a <;> cases b <;> simp_all [feq]

theorem feq_of_flt_left {a b : Fl} (h : flt a b = true) : feq a b = false := by
  cases a <;> cases b <;> simp_all [flt, feq] <;> linarith

theorem feq_of_flt_right {a b : Fl} (h : flt a b = true) : feq b a = false := by
  cases a <;> cases b <;> simp_all [flt, feq] <;> linarith

theorem fl_trichotomy {a b : Fl} (ha : a ≠ .nan) (hb : b ≠ .nan)
    (h1 : flt a b = false) (h2 : feq a b = false) : flt b a = true := by
  cases a <;> cases b <;> simp_all [flt, feq] <;>
    first
      | exact lt_of_le_of_ne h1 (fun hh => h2 hh.symm)
      | (rename_i s t; cases s <;> cases t <;> simp_all)

theorem fmul_one (x : Fl) : fmul x (.fin 1) = x := by
  cases x <;> simp [fmul]

theorem fdiv_one (x : Fl) : fdiv x (.fin 1) = x := by
  cases x <;> simp [fdiv]

theorem fadd_zero_left (x : Fl) : fadd (.fin 0) x = x := by
  cases x <;> simp [fadd]

theorem fadd_fin_zero (q : ℚ) : fadd (.fin q) (.fin 0) = .fin q := by
  simp [fadd]

theorem fmul_fin_zero (q : ℚ) : fmul (.fin q) (.fin 0) = .fin 0 := by
  simp [fmul]

/-- Identity `a + (x - a) = x` for a finite `a`, for every `x` (including specials). -/
theorem fadd_fsub_cancel (a : ℚ) (x : Fl) : fadd (.fin a) (fsub x (.fin a)) = x := by
  cases x <;> simp [fadd, fsub]

theorem isNormal_one : isNormal (.fin 1) = true := by
  norm_num [isNormal, minNormal, maxFinite]

theorem fclean_fin (x : Fl) : ∃ q : ℚ, fclean x = .fin q := by
  cases x <;> simp [fclean, isNormal] <;> split_ifs <;> simp_all

theorem fclean_idem (x : Fl) : fclean (fclean x) = fclean x := by
  by_cases h : isNormal x = true
  · simp [fclean, h]
  · simp [fclean, h, isNormal_one]

theorem fclean_one : fclean (.fin 1) = .fin 1 := by
  simp [fclean, isNormal_one]

/-! ### Colour-level helper lemmas -/

theorem fclean_of_not_normal {x : Fl} (h : isNormal x = false) : fclean x = .fin 1 := by
  simp [fclean, h]

theorem cleaned_idem (c : Colour) : (c.cleaned).cleaned = c.cleaned := by
  simp [Colour.cleaned, Colour.map_rgba, Colour.new, fclean_idem]

theorem cleaned_transparent :
    Colour.cleaned ⟨.fin 0, .fin 0, .fin 0, .fin 0⟩ = ⟨.fin 1, .fin 1, .fin 1, .fin 1⟩ := by
  norm_num [Colour.cleaned, Colour.map_rgba, Colour.new, fclean, isNormal]

/-! ### Claim theorems -/

/-- C1 (counterexample): `cleaned` does not leave an exact `0.0` channel
unchanged — cleaning the all-zero colour changes it (to all ones), because
`f64::is_normal` is false for zero. -/
theorem claim_C1_counterexample :
    Colour.cleaned ⟨.fin 0, .fin 0, .fin 0, .fin 0⟩ ≠ ⟨.fin 0, .fin 0, .fin 0, .fin 0⟩ := by
  norm_num [Colour.cleaned, Colour.map_rgba, Colour.new, fclean, isNormal]

/-- C1 (amended): `cleaned()` (and the in-place `clean()`) replaces each
channel value that is NaN, infinite, subnormal, or zero with `1.0`, and
leaves every normal-range value unchanged; dividing a colour by `0.0` and
cleaning yields `1.0` in each affected channel, and cleaning is idempotent. -/
theorem claim_C1 (c : Colour) (q : ℚ) (s : Bool) :
    c.clean = c.cleaned
    ∧ c.cleaned = ⟨fclean c.r, fclean c.g, fclean c.b, fclean c.a⟩
    ∧ fclean (.fin q) =
        (if q ≠ 0 ∧ minNormal ≤ |q| ∧ |q| < maxFinite then .fin q else .fin 1)
    ∧ fclean (.inf s) = .fin 1
    ∧ fclean .nan = .fin 1
    ∧ (Colour.divScalar (Colour.grey (.fin (1/2))) (.fin 0)).cleaned = Colour.grey (.fin 1)
    ∧ (c.cleaned).cleaned = c.cleaned := by
  refine ⟨rfl, rfl, ?_, rfl, rfl, ?_, cleaned_idem c⟩
  · simp [fclean, isNormal]
  · norm_num [Colour.cleaned, Colour.map_rgba, Colour.divScalar, Colour.grey, Colour.solid,
      Colour.new, fclean, isNormal, fdiv, minNormal, maxFinite]

/-- C2: `blend` returns exactly the spec's compositing formula — alpha is
`blend_layer.a + base.a*(1-blend_layer.a)` and each RGB channel is
`(blended*blend_layer.a + base*base.a*(1-blend_layer.a)) / out_alpha` with
`blended` the mode's cleaned channel-blend result; no cleaning happens after
the division, so a zero `out_alpha` leaks NaN channels (second conjunct). -/
theorem claim_C2 :
    (∀ (base blend_layer : Colour) (mode : BlendMode),
        Colour.blend base blend_layer mode = blendSpecFormula base blend_layer mode)
    ∧ Colour.blend Colour.transparent Colour.transparent .Normal
        = ⟨.nan, .nan, .nan, .fin 0⟩ := by
  refine ⟨fun base blend_layer mode => rfl, ?_⟩
  norm_num [Colour.blend, Colour.compositePhase, Colour.channelBlendRaw, Colour.cleaned,
    Colour.map_rgba, Colour.transparent, Colour.new, Colour.divScalar, Colour.addColour,
    Colour.mulScalar, Colour.with_alpha, fclean, isNormal, fadd, fsub, fmul, fdiv]

/-- C4 (counterexample): `lerp` does not interpolate the alpha channel —
at `t = 0.5` between alpha `0` and alpha `1` the result's alpha is `0`,
not `a.a + (b.a - a.a) * t = 0.5`. -/
theorem claim_C4_counterexample :
    (Colour.lerp ⟨.fin 0, .fin 0, .fin 0, .fin 0⟩ ⟨.fin 0, .fin 0, .fin 0, .fin 1⟩
        (.fin (1/2))).a
      ≠ fadd (.fin 0) (fmul (fsub (.fin 1) (.fin 0)) (.fin (1/2))) := by
  norm_num [Colour.lerp, Colour.addColour, Colour.mulScalar, Colour.subColour, Colour.new,
    fadd, fsub, fmul]

/-- C4 (amended): `Colour::lerp(a, b, t)` computes `a + (b - a) * t` on each
RGB channel, but the alpha channel is not interpolated: the result's alpha is
`a.a` unchanged (every binary `Colour` operator keeps the left alpha). -/
theorem claim_C4 (x y : Colour) (t : Fl) :
    Colour.lerp x y t =
      ⟨fadd x.r (fmul (fsub y.r x.r) t), fadd x.g (fmul (fsub y.g x.g) t),
       fadd x.b (fmul (fsub y.b x.b) t), x.a⟩ := rfl

/-- C10: the cleaning step between the channel-blend phase and the
compositing phase maps an exact `0.0` channel to `1.0` (zero is not a
normal float); blending opaque `red(1.0)` with `grey(0.5)` under `Multiply`
therefore returns `(0.5, 1.0, 1.0, 1.0)`, not `(0.5, 0.0, 0.0, 1.0)`. -/
theorem claim_C10 :
    (∀ (base blend_layer : Colour) (mode : BlendMode),
        Colour.blend base blend_layer mode
          = Colour.compositePhase base blend_layer
              (Colour.cleaned (Colour.channelBlendRaw base blend_layer mode)))
    ∧ fclean (.fin 0) = .fin 1
    ∧ Colour.blend (Colour.red (.fin 1)) (Colour.grey (.fin (1/2))) .Multiply
        = ⟨.fin (1/2), .fin 1, .fin 1, .fin 1⟩
    ∧ Colour.blend (Colour.red (.fin 1)) (Colour.grey (.fin (1/2))) .Multiply
        ≠ ⟨.fin (1/2), .fin 0, .fin 0, .fin 1⟩ := by
  refine ⟨fun base blend_layer mode => rfl, by norm_num [fclean, isNormal], ?_, ?_⟩ <;>
    norm_num [Colour.blend, Colour.compositePhase, Colour.channelBlendRaw, Colour.cleaned,
      Colour.map_rgba, Colour.mulColour, Colour.mulScalar, Colour.divScalar, Colour.addColour,
      Colour.with_alpha, Colour.red, Colour.grey, Colour.solid, Colour.new,
      fclean, isNormal, fadd, fsub, fmul, fdiv, minNormal, maxFinite, abs_of_nonneg]

/-- C8: compositing any opaque base colour with the fully transparent colour
returns the base colour exactly, in all four channels. -/
theorem claim_C8 (base : Colour) (h : base.a = .fin 1) :
    base.compose Colour.transparent = base := by
  have h10 : fsub (Fl.fin 1) (Fl.fin 0) = Fl.fin 1 := by norm_num [fsub]
  have h11 : fmul (Fl.fin 1) (Fl.fin 0) = Fl.fin 0 := by norm_num [fmul]
  simp only [Colour.compose, Colour.blend, Colour.channelBlendRaw, cleaned_transparent,
    Colour.compositePhase, Colour.divScalar, Colour.addColour, Colour.mulScalar,
    Colour.with_alpha, Colour.new, Colour.transparent, h, h10, h11, fmul_one,
    fadd_zero_left, fdiv_one]
  rw [← h]

/-- C8 (witness): at `base = red(1.0)` the hypotheses hold and compositing
with the transparent colour is the identity. -/
theorem claim_C8_witness :
    (Colour.red (.fin 1)).compose Colour.transparent = Colour.red (.fin 1) :=
  claim_C8 (Colour.red (.fin 1)) rfl

theorem isNormal_overlay_notfin (x y : Fl) (hx : isFinite x = false) :
    isNormal (Colour.overlayChannel x y) = false := by
  cases x with
  | fin q => simp [isFinite] at hx
  | nan =>
      cases y <;>
        norm_num [Colour.overlayChannel, flt, fsub, fmul, isNormal]
  | inf s =>
      cases s <;> cases y <;>
        norm_num [Colour.overlayChannel, flt, fsub, fmul, isNormal] <;>
        split_ifs <;>
        norm_num [isNormal]

/-- The RGB channel of HardLight's nested inner composite, cleaned again by
the outer blend, equals the cleaned swapped-Overlay channel when both alphas
are `1` (`x` is the blend layer's channel, `y` the base's). -/
theorem hl_channel (x y : Fl) :
    fclean (fdiv (fadd (fclean (Colour.overlayChannel x y)) (fmul x (.fin 0))) (.fin 1))
      = fclean (Colour.overlayChannel x y) := by
  obtain ⟨w, hw⟩ := fclean_fin (Colour.overlayChannel x y)
  rw [hw]
  cases x with
  | fin p =>
      have : fadd (Fl.fin w) (fmul (Fl.fin p) (Fl.fin 0)) = Fl.fin w := by
        norm_num [fadd, fmul]
      rw [this, fdiv_one, ← hw, fclean_idem]
  | inf s =>
      have hw1 : Fl.fin w = Fl.fin 1 := by
        rw [← hw, fclean_of_not_normal (isNormal_overlay_notfin (.inf s) y rfl)]
      rw [hw1]
      norm_num [fadd, fmul, fdiv, fclean, isNormal]
  | nan =>
      have hw1 : Fl.fin w = Fl.fin 1 := by
        rw [← hw, fclean_of_not_normal (isNormal_overlay_notfin .nan y rfl)]
      rw [hw1]
      norm_num [fadd, fmul, fdiv, fclean, isNormal]

/-- C3 (counterexample): with both alphas `0.5`, HardLight's nested full
blend (`other.blend(self, Overlay)`) composites twice, so the result differs
from the two-phase blend that only swaps the Overlay channel formula (the
code yields RGB `169/225`, the swapped-channel composite `19/25`). -/
theorem claim_C3_counterexample :
    Colour.blend ⟨.fin (3/5), .fin (3/5), .fin (3/5), .fin (1/2)⟩
        ⟨.fin (4/5), .fin (4/5), .fin (4/5), .fin (1/2)⟩ .HardLight
      ≠ hardLightSpec ⟨.fin (3/5), .fin (3/5), .fin (3/5), .fin (1/2)⟩
        ⟨.fin (4/5), .fin (4/5), .fin (4/5), .fin (1/2)⟩ := by
  norm_num [Colour.blend, hardLightSpec, Colour.channelBlendRaw, Colour.compositePhase,
    Colour.cleaned, Colour.map_rgba, Colour.map_with, Colour.overlayChannel, Colour.divScalar,
    Colour.addColour, Colour.mulScalar, Colour.with_alpha, Colour.new, fclean, isNormal, flt,
    fadd, fsub, fmul, fdiv, minNormal, maxFinite, abs_of_nonneg]

/-- C3 (amended): HardLight's channel phase is the full nested blend
`other.blend(self, Overlay)` rather than just the swapped Overlay channel
formula; when base and blend layer are both fully opaque (alpha `1`) the
nested compositing collapses and HardLight coincides with the two-phase
blend whose channel formula is Overlay with roles swapped. -/
theorem claim_C3 (x y : Colour) (hx : x.a = .fin 1) (hy : y.a = .fin 1) :
    Colour.blend x y .HardLight = hardLightSpec x y := by
  have h0 : fsub (Fl.fin 1) (Fl.fin 1) = Fl.fin 0 := by norm_num [fsub]
  have h1 : fmul (Fl.fin 1) (Fl.fin 0) = Fl.fin 0 := by norm_num [fmul]
  have h2 : fadd (Fl.fin 1) (Fl.fin 0) = Fl.fin 1 := by norm_num [fadd]
  have key : Colour.cleaned (Colour.compositePhase y x
        (Colour.cleaned (Colour.map_with y x Colour.overlayChannel)))
      = Colour.cleaned (Colour.map_with x y fun a b => Colour.overlayChannel b a) := by
    simp only [Colour.compositePhase, Colour.cleaned, Colour.map_with, Colour.map_rgba,
      Colour.divScalar, Colour.addColour, Colour.mulScalar, Colour.with_alpha, Colour.new,
      hx, hy, h0, h1, h2, fmul_one, fclean_one, hl_channel]
  show Colour.compositePhase x y (Colour.cleaned (Colour.compositePhase y x
      (Colour.cleaned (Colour.map_with y x Colour.overlayChannel)))) = hardLightSpec x y
  rw [key]
  rfl

/-- C3 (witness): for the opaque greys `0.6` and `0.8` the amended statement
applies and the two sides agree. -/
theorem claim_C3_witness :
    Colour.blend (Colour.grey (.fin (3/5))) (Colour.grey (.fin (4/5))) .HardLight
      = hardLightSpec (Colour.grey (.fin (3/5))) (Colour.grey (.fin (4/5))) :=
  claim_C3 (Colour.grey (.fin (3/5))) (Colour.grey (.fin (4/5))) rfl rfl

/-! ### Gradient lemmas -/

theorem sorted_tail {s : GradientStop} {rest : Gradient} (h : Sorted (s :: rest)) :
    Sorted rest :=
  (List.pairwise_cons.mp h).2

theorem sorted_head_lt {s : GradientStop} {rest : Gradient} (h : Sorted (s :: rest)) :
    ∀ x ∈ rest, flt s.1 x.1 = true :=
  (List.pairwise_cons.mp h).1

theorem scanFind_none (t : Fl) :
    ∀ (l : Gradient) (prev : Option GradientStop),
      (∀ s ∈ l, flt t s.1 = false) → scanFind t prev l = none := by
  intro l
  induction l with
  | nil => intro prev _; rfl
  | cons s rest ih =>
      intro prev h
      simp only [scanFind]
      rw [if_neg (by simp [h s (List.mem_cons_self s rest)])]
      exact ih (some s) fun x hx => h x (List.mem_cons_of_mem s hx)

theorem all_not_gt_of_le_last (t : Fl) :
    ∀ (l : Gradient) (hne : l ≠ []), Sorted l → fle (l.getLast hne).1 t = true →
      ∀ s ∈ l, flt t s.1 = false := by
  intro l
  induction l with
  | nil => intro hne; exact absurd rfl hne
  | cons a rest ih =>
      intro hne hs hle s hmem
      cases rest with
      | nil =>
          have hsa : s = a := by simpa using hmem
          subst hsa
          exact not_flt_of_fle hle
      | cons b rest' =>
          have hlast : ((a :: b :: rest').getLast hne) = ((b :: rest').getLast (by simp)) :=
            List.getLast_cons (by simp)
          rw [hlast] at hle
          rcases List.mem_cons.mp hmem with rfl | hmem'
          · have h1 : flt s.1 ((b :: rest').getLast (by simp)).1 = true :=
              sorted_head_lt hs _ (List.getLast_mem (by simp))
            exact flt_asymm (flt_of_flt_of_fle h1 hle)
          · exact ih (by simp) (sorted_tail hs) hle s hmem'

theorem scanFind_bracket (t : Fl) :
    ∀ (l : Gradient) (prev : Option GradientStop), Sorted l →
      ∀ (i : ℕ) (h : i + 1 < l.length),
        fle (l.get ⟨i, Nat.lt_of_succ_lt h⟩).1 t = true →
        flt t (l.get ⟨i + 1, h⟩).1 = true →
        scanFind t prev l = some (l.get ⟨i, Nat.lt_of_succ_lt h⟩, l.get ⟨i + 1, h⟩) := by
  intro l
  induction l with
  | nil => intro prev _ i h; simp only [List.length_nil] at h; omega
  | cons s rest ih =>
      intro prev hs i h h1 h2
      cases i with
      | zero =>
          cases rest with
          | nil => simp only [List.length_cons, List.length_nil] at h; omega
          | cons r rest' =>
              have hnot : flt t s.1 = false := not_flt_of_fle h1
              simp only [scanFind]
              rw [if_neg (by simp [hnot]), if_pos (by simpa using h2)]
              rfl
      | succ j =>
          have hj : j + 1 < rest.length := by simpa using h
          have hs_lt : flt s.1 (rest.get ⟨j, Nat.lt_of_succ_lt hj⟩).1 = true :=
            sorted_head_lt hs _ (List.get_mem rest j (Nat.lt_of_succ_lt hj))
          have hts : flt s.1 t = true := flt_of_flt_of_fle hs_lt (by simpa using h1)
          simp only [scanFind]
          rw [if_neg (by simp [flt_asymm hts])]
          have := ih (some s) (sorted_tail hs) j hj (by simpa using h1) (by simpa using h2)
          simpa using this

theorem subgradient_of_scanFind {g : Gradient} {t : Fl}
    {p : GradientStop × GradientStop} (h : scanFind t none g = some p) :
    subgradient g t = some p := by
  simp [subgradient, h]

/-- C5: for a non-empty sorted gradient, `subgradient` returns `(first, first)`
below the first stop, `(last, last)` at or beyond the last stop, the
adjacent bracketing pair `(prev, next)` when `prev.pos ≤ t < next.pos`, and
`(only, only)` on any single-stop gradient. -/
theorem claim_C5 (g : Gradient) (t : Fl) (hs : Sorted g) (hne : g ≠ []) :
    (flt t (g.head hne).1 = true → subgradient g t = some (g.head hne, g.head hne))
    ∧ (fle (g.getLast hne).1 t = true →
        subgradient g t = some (g.getLast hne, g.getLast hne))
    ∧ (∀ (i : ℕ) (h : i + 1 < g.length),
        fle (g.get ⟨i, Nat.lt_of_succ_lt h⟩).1 t = true →
        flt t (g.get ⟨i + 1, h⟩).1 = true →
        subgradient g t = some (g.get ⟨i, Nat.lt_of_succ_lt h⟩, g.get ⟨i + 1, h⟩))
    ∧ (∀ s, g = [s] → subgradient g t = some (s, s)) := by
  refine ⟨?_, ?_, ?_, ?_⟩
  · intro hlt
    cases g with
    | nil => exact absurd rfl hne
    | cons a rest =>
        simp only [List.head_cons] at hlt
        simp only [subgradient, scanFind]
        rw [if_pos (by simpa using hlt)]
        rfl
  · intro hle
    have hnone : scanFind t none g = none :=
      scanFind_none t g none (all_not_gt_of_le_last t g hne hs hle)
    simp [subgradient, hnone, List.getLast?_eq_getLast g hne]
  · intro i h h1 h2
    exact subgradient_of_scanFind (scanFind_bracket t g none hs i h h1 h2)
  · rintro s rfl
    by_cases hc : flt t s.1 = true <;>
      simp [subgradient, scanFind, hc]

/-- C5 (witness): on the spec's gradient with stops at `0.5, 0.7, 0.8`, the
query `0.6` is bracketed by the first two stops. -/
theorem claim_C5_witness :
    subgradient
        [((.fin (1/2) : Fl), Colour.red (.fin 1)), (.fin (7/10), Colour.green (.fin 1)),
         (.fin (4/5), Colour.blue (.fin 1))] (.fin (3/5))
      = some ((.fin (1/2), Colour.red (.fin 1)), (.fin (7/10), Colour.green (.fin 1))) := by
  have h := claim_C5
    [((.fin (1/2) : Fl), Colour.red (.fin 1)), (.fin (7/10), Colour.green (.fin 1)),
     (.fin (4/5), Colour.blue (.fin 1))] (.fin (3/5))
    (by norm_num [Sorted, List.pairwise_cons, flt]) (by simp)
  exact h.2.2.1 0 (by norm_num) (by norm_num [fle, List.get]) (by norm_num [flt, List.get])

/-- C7: on the empty gradient, `subgradient` (and the operations built on it)
hit the panicking `unwrap`, modelled as `none`; on any non-empty gradient
every one of them returns a value. -/
theorem claim_C7 (g : Gradient) (hne : g ≠ []) (t : Fl)
    (interp : Colour → Colour → Fl → Colour) :
    subgradient ([] : Gradient) t = none
    ∧ interpolate [] t interp = none
    ∧ sample [] t = none
    ∧ select [] t = none
    ∧ select_upper [] t = none
    ∧ (subgradient g t).isSome = true
    ∧ (interpolate g t interp).isSome = true
    ∧ (sample g t).isSome = true
    ∧ (select g t).isSome = true
    ∧ (select_upper g t).isSome = true := by
  have hsome : (subgradient g t).isSome = true := by
    unfold subgradient
    cases hsf : scanFind t none g with
    | some p => rfl
    | none => simp [List.getLast?_eq_getLast g hne]
  obtain ⟨p, hp⟩ := Option.isSome_iff_exists.mp hsome
  exact ⟨rfl, rfl, rfl, rfl, rfl, hsome,
    by simp [interpolate, hp], by simp [sample, interpolate, hp],
    by simp [select, hp], by simp [select_upper, hp]⟩

/-- C7 (witness): the singleton gradient at position `0` supports all five
operations. -/
theorem claim_C7_witness :
    (subgradient [((.fin 0 : Fl), Colour.transparent)] (.fin 0)).isSome = true
    ∧ (sample [((.fin 0 : Fl), Colour.transparent)] (.fin 0)).isSome = true := by
  have h := claim_C7 [((.fin 0 : Fl), Colour.transparent)] (by simp) (.fin 0)
    (fun f tc t' => f)
  exact ⟨h.2.2.2.2.2.1, h.2.2.2.2.2.2.2.1⟩

theorem feq_ne_nan {a b : Fl} (h : feq a b = true) : a ≠ .nan ∧ b ≠ .nan := by
  cases a <;> cases b <;> simp_all [feq]

theorem bool_eq_false {b : Bool} (h : ¬b = true) : b = false := by
  cases b <;> simp_all

theorem insert_cons_lt {s : GradientStop} {rest : Gradient} {t : Fl} {c : Colour}
    (h : flt s.1 t = true) :
    TColour.insert (s :: rest) t c = s :: TColour.insert rest t c := by
  simp only [TColour.insert]
  rw [if_pos h]

theorem insert_cons_eq {s : GradientStop} {rest : Gradient} {t : Fl} {c : Colour}
    (h1 : ¬flt s.1 t = true) (h2 : feq s.1 t = true) :
    TColour.insert (s :: rest) t c = (s.1, c) :: rest := by
  simp only [TColour.insert]
  rw [if_neg h1, if_pos h2]

theorem insert_cons_gt {s : GradientStop} {rest : Gradient} {t : Fl} {c : Colour}
    (h1 : ¬flt s.1 t = true) (h2 : ¬feq s.1 t = true) :
    TColour.insert (s :: rest) t c = (t, c) :: s :: rest := by
  simp only [TColour.insert]
  rw [if_neg h1, if_neg h2]

theorem mem_insert (t : Fl) (c : Colour) :
    ∀ (l : Gradient) (x : GradientStop), x ∈ TColour.insert l t c → x ∈ l ∨ x.1 = t := by
  intro l
  induction l with
  | nil =>
      intro x hx
      simp only [TColour.insert, List.mem_singleton] at hx
      exact Or.inr (by rw [hx])
  | cons s rest ih =>
      intro x hx
      by_cases h1 : flt s.1 t = true
      · rw [insert_cons_lt h1, List.mem_cons] at hx
        rcases hx with rfl | hx'
        · exact Or.inl (List.mem_cons_self _ _)
        · rcases ih x hx' with hmem | hpos
          · exact Or.inl (List.mem_cons_of_mem _ hmem)
          · exact Or.inr hpos
      · by_cases h2 : feq s.1 t = true
        · rw [insert_cons_eq h1 h2, List.mem_cons] at hx
          rcases hx with rfl | hx'
          · exact Or.inr (feq_eq h2)
          · exact Or.inl (List.mem_cons_of_mem _ hx')
        · rw [insert_cons_gt h1 h2, List.mem_cons] at hx
          rcases hx with rfl | hx'
          · exact Or.inr rfl
          · exact Or.inl hx'

theorem insert_sorted (t : Fl) (c : Colour) (ht : t ≠ .nan) :
    ∀ (l : Gradient), Sorted l → (∀ s ∈ l, s.1 ≠ .nan) →
      Sorted (TColour.insert l t c) := by
  intro l
  induction l with
  | nil => intro _ _; simp [TColour.insert, Sorted]
  | cons s rest ih =>
      intro hs hnn
      by_cases h1 : flt s.1 t = true
      · rw [insert_cons_lt h1, Sorted, List.pairwise_cons]
        refine ⟨?_, ih (sorted_tail hs) fun x hx => hnn x (List.mem_cons_of_mem s hx)⟩
        intro x hx
        rcases mem_insert t c rest x hx with hmem | hpos
        · exact sorted_head_lt hs x hmem
        · rw [hpos]; exact h1
      · by_cases h2 : feq s.1 t = true
        · rw [insert_cons_eq h1 h2, Sorted, List.pairwise_cons]
          exact ⟨fun x hx => sorted_head_lt hs x hx, sorted_tail hs⟩
        · rw [insert_cons_gt h1 h2, Sorted, List.pairwise_cons]
          have hts : flt t s.1 = true :=
            fl_trichotomy (hnn s (List.mem_cons_self s rest)) ht
              (bool_eq_false h1) (bool_eq_false h2)
          refine ⟨?_, hs⟩
          intro x hx
          rcases List.mem_cons.mp hx with rfl | hx'
          · exact hts
          · exact flt_trans hts (sorted_head_lt hs x hx')

theorem insert_eq_takeDrop (t : Fl) (c : Colour) :
    ∀ (l : Gradient), (∀ s ∈ l, feq s.1 t = false) →
      TColour.insert l t c
        = l.takeWhile (fun s => flt s.1 t) ++ (t, c) :: l.dropWhile (fun s => flt s.1 t) := by
  intro l
  induction l with
  | nil => intro _; rfl
  | cons s rest ih =>
      intro hno
      by_cases h1 : flt s.1 t = true
      · rw [insert_cons_lt h1, ih fun x hx => hno x (List.mem_cons_of_mem s hx)]
        simp [List.takeWhile_cons, List.dropWhile_cons, h1]
      · have h2 : ¬feq s.1 t = true := by
          rw [hno s (List.mem_cons_self s rest)]; simp
        rw [insert_cons_gt h1 h2]
        simp [List.takeWhile_cons, List.dropWhile_cons, bool_eq_false h1]

theorem insert_length_new (t : Fl) (c : Colour) :
    ∀ l : Gradient, (∀ s ∈ l, feq s.1 t = false) →
      (TColour.insert l t c).length = l.length + 1 := by
  intro l
  induction l with
  | nil => intro _; rfl
  | cons s rest ih =>
      intro hno
      by_cases h1 : flt s.1 t = true
      · rw [insert_cons_lt h1]
        simp [ih fun x hx => hno x (List.mem_cons_of_mem s hx)]
      · rw [insert_cons_gt h1 (by rw [hno s (List.mem_cons_self s rest)]; simp)]
        simp

theorem insert_replace (t : Fl) (c : Colour) :
    ∀ (l : Gradient), Sorted l → (∃ s ∈ l, feq s.1 t = true) →
      TColour.insert l t c = l.map fun s => if feq s.1 t = true then (s.1, c) else s := by
  intro l
  induction l with
  | nil => intro _ hex; simp at hex
  | cons s rest ih =>
      intro hs hex
      by_cases h1 : flt s.1 t = true
      · have h2 : feq s.1 t = false := feq_of_flt_left h1
        have hex' : ∃ x ∈ rest, feq x.1 t = true := by
          rcases hex with ⟨x, hx, hfx⟩
          rcases List.mem_cons.mp hx with rfl | hx'
          · rw [h2] at hfx; exact absurd hfx (by simp)
          · exact ⟨x, hx', hfx⟩
        rw [insert_cons_lt h1, List.map_cons, if_neg (by simp [h2]),
          ih (sorted_tail hs) hex']
      · by_cases h2 : feq s.1 t = true
        · rw [insert_cons_eq h1 h2, List.map_cons, if_pos h2]
          have hrest : ∀ x ∈ rest, feq x.1 t = false := by
            intro x hx
            have hst : s.1 = t := feq_eq h2
            have hlt : flt t x.1 = true := hst ▸ sorted_head_lt hs x hx
            exact feq_of_flt_right hlt
          have hmap : rest.map (fun s => if feq s.1 t = true then (s.1, c) else s)
              = rest.map id :=
            List.map_congr_left fun x hx => by
              rw [if_neg (by simp [hrest x hx])]; rfl
          rw [hmap, List.map_id]
        · exfalso
          rcases hex with ⟨x, hx, hfx⟩
          rcases List.mem_cons.mp hx with rfl | hx'
          · exact h2 hfx
          · have htn : t ≠ Fl.nan := (feq_ne_nan hfx).2
            have hsnan : s.1 ≠ Fl.nan := flt_ne_nan_left (sorted_head_lt hs x hx')
            have hts : flt t s.1 = true :=
              fl_trichotomy hsnan htn (bool_eq_false h1) (bool_eq_false h2)
            have hltx : flt t x.1 = true := flt_trans hts (sorted_head_lt hs x hx')
            rw [feq_of_flt_right hltx] at hfx
            exact absurd hfx (by simp)

/-- C6 (counterexample): inserting at position NaN does not keep the gradient
sorted — NaN compares false under `<`, so the new stop is prepended in front
of a smaller position. -/
theorem claim_C6_counterexample :
    Sorted [((.fin (1/2) : Fl), Colour.red (.fin 1))]
    ∧ ¬ Sorted (TColour.insert [((.fin (1/2) : Fl), Colour.red (.fin 1))] .nan
        (Colour.blue (.fin 1))) := by
  constructor
  · simp [Sorted]
  · intro h
    rw [insert_cons_gt (by simp [flt]) (by simp [feq])] at h
    rw [Sorted, List.pairwise_cons] at h
    have := h.1 _ (List.mem_cons_self _ _)
    simp [flt] at this

/-- C6 (amended): for every gradient sorted strictly ascending by position
with no NaN positions, and every non-NaN insert position: if a stop with
exactly that position exists, `insert` replaces its colour and keeps length
and positions unchanged; otherwise it inserts `(t, colour)` immediately
before the first stop whose position is not less than `t` (appending when
none exists), growing the length by one; in both cases the result is again
strictly sorted. -/
theorem claim_C6 (g : Gradient) (t : Fl) (c : Colour) (hs : Sorted g)
    (hnn : ∀ s ∈ g, s.1 ≠ Fl.nan) (ht : t ≠ Fl.nan) :
    ((∃ s ∈ g, feq s.1 t = true) →
        TColour.insert g t c = g.map (fun s => if feq s.1 t = true then (s.1, c) else s)
        ∧ (TColour.insert g t c).length = g.length)
    ∧ ((∀ s ∈ g, feq s.1 t = false) →
        TColour.insert g t c
            = g.takeWhile (fun s => flt s.1 t) ++ (t, c) :: g.dropWhile (fun s => flt s.1 t)
        ∧ (TColour.insert g t c).length = g.length + 1
        ∧ (t, c) ∈ TColour.insert g t c)
    ∧ Sorted (TColour.insert g t c) := by
  refine ⟨?_, ?_, insert_sorted t c ht g hs hnn⟩
  · intro hex
    have heq := insert_replace t c g hs hex
    exact ⟨heq, by rw [heq, List.length_map]⟩
  · intro hno
    have heq := insert_eq_takeDrop t c g hno
    refine ⟨heq, insert_length_new t c g hno, ?_⟩
    rw [heq]
    exact List.mem_append_right _ (List.mem_cons_self _ _)

/-- C6 (witness): inserting position `0.6` into the spec's three-stop
gradient keeps it sorted. -/
theorem claim_C6_witness :
    Sorted (TColour.insert
      [((.fin (1/2) : Fl), Colour.red (.fin 1)), (.fin (7/10), Colour.green (.fin 1)),
       (.fin (4/5), Colour.blue (.fin 1))] (.fin (3/5)) (Colour.grey (.fin (1/2)))) :=
  (claim_C6
    [((.fin (1/2) : Fl), Colour.red (.fin 1)), (.fin (7/10), Colour.green (.fin 1)),
     (.fin (4/5), Colour.blue (.fin 1))] (.fin (3/5)) (Colour.grey (.fin (1/2)))
    (by norm_num [Sorted, List.pairwise_cons, flt])
    (by decide)
    (by simp)).2.2

theorem isFinite_fin {x : Fl} (h : isFinite x = true) : ∃ q : ℚ, x = .fin q := by
  cases x <;> simp_all [isFinite]

/-- The `normalised_t` computed at a query equal to the lower bracket position
is never a normal float (`(p - p) / d` is zero, NaN, or the result of a NaN
numerator), for every position `p` and bracket width `d`. -/
theorem localT_not_normal (p d : Fl) : isNormal (fdiv (fsub p p) d) = false := by
  cases p with
  | fin q =>
      cases d with
      | fin r =>
          by_cases hr : r = 0 <;>
            simp [fsub, fdiv, isNormal, hr, sub_self]
      | inf s => simp [fsub, fdiv, isNormal]
      | nan => simp [fsub, fdiv, isNormal]
  | inf s => cases d <;> simp [fsub, fdiv, isNormal]
  | nan => cases d <;> simp [fsub, fdiv, isNormal]

/-- C9 (counterexample): sampling at a stop whose own colour has an infinite
channel does not return the following stop's colour — the red channel becomes
`inf + (0.3 - inf) = NaN`. -/
theorem claim_C9_counterexample :
    sample [((.fin 0 : Fl), ⟨.inf true, .fin 1, .fin 1, .fin 1⟩),
            ((.fin 1 : Fl), ⟨.fin (3/10), .fin 1, .fin 1, .fin 1⟩)] (.fin 0)
      ≠ some (⟨.fin (3/10), .fin 1, .fin 1, .fin 1⟩ : Colour) := by
  have hbr : subgradient
      [((.fin 0 : Fl), (⟨.inf true, .fin 1, .fin 1, .fin 1⟩ : Colour)),
       ((.fin 1 : Fl), (⟨.fin (3/10), .fin 1, .fin 1, .fin 1⟩ : Colour))] (.fin 0)
      = some (((.fin 0 : Fl), (⟨.inf true, .fin 1, .fin 1, .fin 1⟩ : Colour)),
          ((.fin 1 : Fl), (⟨.fin (3/10), .fin 1, .fin 1, .fin 1⟩ : Colour))) := by
    norm_num [subgradient, scanFind, flt]
  have hnt : isNormal (fdiv (fsub (Fl.fin 0) (.fin 0)) (fsub (.fin 1) (.fin 0))) = false :=
    localT_not_normal (Fl.fin 0) _
  rw [sample, interpolate, hbr, Option.map_some']
  simp only []
  rw [if_neg (by simp [hnt])]
  norm_num [fsub, fadd, fmul, Colour.addColour, Colour.mulScalar, Colour.subColour,
    Colour.with_alpha, Colour.new]
  simp

/-- C9 (amended): for a sorted gradient queried at the position of a stop
that is not the last one, the bracket is `(that stop, the next stop)` and the
computed `local_t` is not a normal float, so `interpolate` calls the
interpolator with `local_t` forced to `1.0` and the upper bracket colour
selected; `sample` then returns exactly the following stop's colour provided
the queried stop's own colour channels (including alpha) are all finite. -/
theorem claim_C9 (g : Gradient) (hs : Sorted g) (i : ℕ) (h : i + 1 < g.length) :
    (∀ interp : Colour → Colour → Fl → Colour,
        interpolate g (g.get ⟨i, Nat.lt_of_succ_lt h⟩).1 interp
          = some (interp (g.get ⟨i, Nat.lt_of_succ_lt h⟩).2 (g.get ⟨i + 1, h⟩).2 (.fin 1)))
    ∧ ((isFinite (g.get ⟨i, Nat.lt_of_succ_lt h⟩).2.r
          && isFinite (g.get ⟨i, Nat.lt_of_succ_lt h⟩).2.g
          && isFinite (g.get ⟨i, Nat.lt_of_succ_lt h⟩).2.b
          && isFinite (g.get ⟨i, Nat.lt_of_succ_lt h⟩).2.a) = true →
        sample g (g.get ⟨i, Nat.lt_of_succ_lt h⟩).1 = some (g.get ⟨i + 1, h⟩).2) := by
  have hadj : flt (g.get ⟨i, Nat.lt_of_succ_lt h⟩).1 (g.get ⟨i + 1, h⟩).1 = true :=
    List.pairwise_iff_get.mp hs ⟨i, Nat.lt_of_succ_lt h⟩ ⟨i + 1, h⟩ (by simp)
  have hfle : fle (g.get ⟨i, Nat.lt_of_succ_lt h⟩).1 (g.get ⟨i, Nat.lt_of_succ_lt h⟩).1
      = true := fle_refl (flt_ne_nan_left hadj)
  have hbr : subgradient g (g.get ⟨i, Nat.lt_of_succ_lt h⟩).1
      = some (g.get ⟨i, Nat.lt_of_succ_lt h⟩, g.get ⟨i + 1, h⟩) :=
    subgradient_of_scanFind
      (scanFind_bracket (g.get ⟨i, Nat.lt_of_succ_lt h⟩).1 g none hs i h hfle hadj)
  have hnt := localT_not_normal (g.get ⟨i, Nat.lt_of_succ_lt h⟩).1
    (fsub (g.get ⟨i + 1, h⟩).1 (g.get ⟨i, Nat.lt_of_succ_lt h⟩).1)
  constructor
  · intro interp
    simp only [List.get_eq_getElem] at hbr hnt
    simp [interpolate, hbr, hnt]
  · intro hfin
    simp only [Bool.and_eq_true] at hfin
    obtain ⟨⟨⟨hfr, hfg⟩, hfb⟩, hfa⟩ := hfin
    obtain ⟨qr, hqr⟩ := isFinite_fin hfr
    obtain ⟨qg, hqg⟩ := isFinite_fin hfg
    obtain ⟨qb, hqb⟩ := isFinite_fin hfb
    obtain ⟨qa, hqa⟩ := isFinite_fin hfa
    simp only [List.get_eq_getElem] at hbr hnt hqr hqg hqb hqa
    simp [sample, interpolate, hbr, hnt, Colour.addColour, Colour.mulScalar,
      Colour.subColour, Colour.with_alpha, Colour.new, fmul_one, hqr, hqg, hqb, hqa,
      fadd_fsub_cancel]

/-- C9 (witness): in the two-stop gradient `[(0, red), (1, blue)]`, sampling
at position `0` (the first stop) returns the blue colour of the second stop. -/
theorem claim_C9_witness :
    sample [((.fin 0 : Fl), Colour.red (.fin 1)), ((.fin 1 : Fl), Colour.blue (.fin 1))]
        (.fin 0)
      = some (Colour.blue (.fin 1)) :=
  (claim_C9 [((.fin 0 : Fl), Colour.red (.fin 1)), ((.fin 1 : Fl), Colour.blue (.fin 1))]
    (by norm_num [Sorted, List.pairwise_cons, flt]) 0 (by norm_num)).2 (by decide)

end TColour
